import Mathlib

/-!
Verification of `mbed-util/atomic_ops.h` (stegut01/core-util).

The header provides an atomic compare-and-set primitive `atomic_cas` in two
realizations — three width specializations (`uint8_t`, `uint16_t`, `uint32_t`)
built on the LDREX/STREX exclusive-monitor instructions for Cortex-M3 and
above, and a generic interrupt-masking variant for Cortex-M0 — plus the retry
loops `atomic_incr` and `atomic_decr` built on top of CAS.

Embedding choices:

* A w-bit unsigned cell is a `Nat`; C unsigned arithmetic is explicit
  arithmetic modulo `2 ^ w`.  The CAS bodies perform no arithmetic, so their
  embedding is width-independent; bounds `v < 2 ^ w` appear as hypotheses
  where a theorem speaks about a particular width.
* `atomic_cas` below is the serial (interference-free) semantics of the three
  exclusive-monitor specializations, whose bodies are identical up to operand
  width: `__LDREX*` reads the current cell value and sets the reservation, and
  with no interfering write the conditional store `__STREX*` succeeds
  (returns 0), so the function returns `!0 = true` after storing.  `__CLREX`
  only clears the reservation and has no observable effect in this state.
* `atomic_cas_irq` is the Cortex-M0 variant with the PRIMASK register modelled
  explicitly (`0` = interrupts enabled); it returns the result together with
  the final PRIMASK value.
* The `while (true)` loops of `atomic_incr` / `atomic_decr` are embedded with
  explicit fuel, returning `none` on fuel exhaustion, so that termination and
  iteration counts are provable facts rather than assumptions.
* Concurrent interleavings of two increment streams are modelled by a
  small-step system in which each agent runs the `atomic_incr` loop and the
  scheduler (a `List Bool`) picks who moves; a CAS attempt is one indivisible
  step, which is exactly the atomicity contract of either realization.
-/

/-- Result of one CAS call: the boolean return value `ok`, the final content
`ptr` of the target cell `*ptr`, and the final content `expected` of the
in/out parameter `*expectedCurrentValue`. -/
structure CasResult where
  ok : Bool
  ptr : Nat
  expected : Nat
deriving DecidableEq, Repr

/-- Serial semantics of the exclusive-monitor `atomic_cas` specializations
(`atomic_cas<uint8_t>`, `<uint16_t>`, `<uint32_t>`, identical up to width):
`currentValue = __LDREX(ptr)`; on mismatch the expectation is overwritten with
`currentValue`, the reservation is cleared and `false` is returned; on match
`__STREX(desiredValue, ptr)` stores and (absent interference) returns 0, so
the call returns `true`. -/
def atomic_cas (ptr expectedCurrentValue desiredValue : Nat) : CasResult :=
  let currentValue := ptr
  if currentValue ≠ expectedCurrentValue then
    { ok := false, ptr := ptr, expected := currentValue }
  else
    { ok := true, ptr := desiredValue, expected := expectedCurrentValue }

/-- The Cortex-M0 interrupt-masking `atomic_cas<T>`: record
`previousPRIMASK = __get_PRIMASK()`, `__disable_irq()` (PRIMASK := 1), do the
plain compare and conditional store, then `__enable_irq()` (PRIMASK := 0) only
if `previousPRIMASK` was zero.  Returns the `CasResult` together with the
final PRIMASK value. -/
def atomic_cas_irq (primask ptr expectedCurrentValue desiredValue : Nat) :
    CasResult × Nat :=
  let previousPRIMASK := primask
  let maskedPRIMASK := 1
  let currentValue := ptr
  let res : CasResult :=
    if currentValue = expectedCurrentValue then
      { ok := true, ptr := desiredValue, expected := expectedCurrentValue }
    else
      { ok := false, ptr := ptr, expected := currentValue }
  let finalPRIMASK := if previousPRIMASK = 0 then 0 else maskedPRIMASK
  (res, finalPRIMASK)

/-- The `while (true)` body of `atomic_incr<T>` with explicit fuel: arguments
are the cell content, the local `oldValue`, and `delta`; `newValue` is
`oldValue + delta` in w-bit unsigned arithmetic.  On CAS success the loop
returns the pair (final cell content, returned `newValue`); on failure it
retries with `oldValue` refreshed by the CAS itself. -/
def atomic_incr_loop (w : Nat) : Nat → Nat → Nat → Nat → Option (Nat × Nat)
  | 0, _, _, _ => none
  | fuel + 1, cell, oldValue, delta =>
    let newValue := (oldValue + delta) % 2 ^ w
    let r := atomic_cas cell oldValue newValue
    if r.ok then some (r.ptr, newValue)
    else atomic_incr_loop w fuel r.ptr r.expected delta

/-- `atomic_incr<T>`: read `oldValue = *valuePtr` (the initial non-atomic
fetch), then run the retry loop. -/
def atomic_incr (w fuel cell delta : Nat) : Option (Nat × Nat) :=
  atomic_incr_loop w fuel cell cell delta

/-- The `while (true)` body of `atomic_decr<T>` with explicit fuel:
`newValue` is `oldValue - delta` in w-bit unsigned arithmetic, i.e.
`(oldValue + (2 ^ w - delta % 2 ^ w)) % 2 ^ w`. -/
def atomic_decr_loop (w : Nat) : Nat → Nat → Nat → Nat → Option (Nat × Nat)
  | 0, _, _, _ => none
  | fuel + 1, cell, oldValue, delta =>
    let newValue := (oldValue + (2 ^ w - delta % 2 ^ w)) % 2 ^ w
    let r := atomic_cas cell oldValue newValue
    if r.ok then some (r.ptr, newValue)
    else atomic_decr_loop w fuel r.ptr r.expected delta

/-- `atomic_decr<T>`: read `oldValue = *valuePtr`, then run the retry loop. -/
def atomic_decr (w fuel cell delta : Nat) : Option (Nat × Nat) :=
  atomic_decr_loop w fuel cell cell delta

/-- CAS with a matching expectation succeeds and stores the desired value. -/
theorem atomic_cas_self (c d : Nat) :
    atomic_cas c c d = { ok := true, ptr := d, expected := c } := by
  simp [atomic_cas]

/-- With at least one unit of fuel, a serial `atomic_incr` succeeds on the
first CAS attempt and stores and returns `(cell + delta) % 2 ^ w`. -/
theorem atomic_incr_eq (w f c d : Nat) (hf : 1 ≤ f) :
    atomic_incr w f c d = some ((c + d) % 2 ^ w, (c + d) % 2 ^ w) := by
  obtain ⟨f, rfl⟩ : ∃ k, f = k + 1 := ⟨f - 1, by omega⟩
  simp [atomic_incr, atomic_incr_loop, atomic_cas_self]

/-- With at least one unit of fuel, a serial `atomic_decr` succeeds on the
first CAS attempt and stores and returns the w-bit value of `cell - delta`. -/
theorem atomic_decr_eq (w f c d : Nat) (hf : 1 ≤ f) :
    atomic_decr w f c d =
      some ((c + (2 ^ w - d % 2 ^ w)) % 2 ^ w,
            (c + (2 ^ w - d % 2 ^ w)) % 2 ^ w) := by
  obtain ⟨f, rfl⟩ : ∃ k, f = k + 1 := ⟨f - 1, by omega⟩
  simp [atomic_decr, atomic_decr_loop, atomic_cas_self]

/-- C1: CAS serial success — if the cell contains `v` and the expectation is
`v`, then `atomic_cas` returns `true`, the cell afterwards contains the
desired value, and the expectation is not modified.  The embedding is
width-independent (the bodies of the 8-, 16- and 32-bit specializations are
identical up to operand width), so quantifying over all natural values covers
each supported width; the interrupt-masking variant is stated alongside for
every prior PRIMASK value. -/
theorem cas_serial_success (v d pm : Nat) :
    atomic_cas v v d = { ok := true, ptr := d, expected := v } ∧
    (atomic_cas_irq pm v v d).1 = { ok := true, ptr := d, expected := v } := by
  constructor
  · simp [atomic_cas]
  · simp [atomic_cas_irq]

/-- C2: CAS failure semantics — with the cell at `v` and expectation `u ≠ v`,
both realizations return `false`, leave the cell at `v`, and overwrite the
expectation with `v`; and in general (free variables `c e s`, `pm2 c2 e2 s2`)
every failing call leaves the cell unchanged and refreshes the expectation to
the cell's current value. -/
theorem cas_serial_failure (v u d pm c e s pm2 c2 e2 s2 : Nat) (h : u ≠ v) :
    atomic_cas v u d = { ok := false, ptr := v, expected := v } ∧
    (atomic_cas_irq pm v u d).1 = { ok := false, ptr := v, expected := v } ∧
    ((atomic_cas c e s).ok = false →
      (atomic_cas c e s).ptr = c ∧ (atomic_cas c e s).expected = c) ∧
    (((atomic_cas_irq pm2 c2 e2 s2).1).ok = false →
      ((atomic_cas_irq pm2 c2 e2 s2).1).ptr = c2 ∧
      ((atomic_cas_irq pm2 c2 e2 s2).1).expected = c2) := by
  refine ⟨?_, ?_, ?_, ?_⟩
  · simp [atomic_cas, h, Ne.symm h]
  · simp [atomic_cas_irq, Ne.symm h]
  · by_cases hc : c = e <;> simp [atomic_cas, hc]
  · by_cases hc : c2 = e2 <;> simp [atomic_cas_irq, hc]

/-- C2 witness at `v = 3`, `u = 5`, `d = 7`, `pm = 0`, and a concrete failing
call `atomic_cas 9 4 6` (and its masking counterpart). -/
theorem cas_serial_failure_witness :
    (5 : Nat) ≠ 3 ∧
    (atomic_cas 3 5 7 = { ok := false, ptr := 3, expected := 3 } ∧
     (atomic_cas_irq 0 3 5 7).1 = { ok := false, ptr := 3, expected := 3 } ∧
     ((atomic_cas 9 4 6).ok = false →
       (atomic_cas 9 4 6).ptr = 9 ∧ (atomic_cas 9 4 6).expected = 9) ∧
     (((atomic_cas_irq 1 9 4 6).1).ok = false →
       ((atomic_cas_irq 1 9 4 6).1).ptr = 9 ∧
       ((atomic_cas_irq 1 9 4 6).1).expected = 9)) :=
  ⟨by decide, cas_serial_failure 3 5 7 0 9 4 6 1 9 4 6 (by decide)⟩

/-- C4: behavioral equivalence of the two CAS realizations — for every prior
PRIMASK value and all cell/expected/desired values (hence at each width once
restricted to w-bit values), the exclusive-monitor CAS and the
interrupt-masking CAS produce the same boolean result, final cell value and
final expectation, i.e. the same `CasResult`. -/
theorem cas_realizations_equiv (pm p e d : Nat) :
    atomic_cas p e d = (atomic_cas_irq pm p e d).1 := by
  by_cases h : p = e <;> simp [atomic_cas, atomic_cas_irq, h]

/-- C5: interrupt-state preservation — after the interrupt-masking CAS, the
interrupt-enable state (PRIMASK = 0 iff interrupts enabled) is exactly the
pre-call state: enabled stays enabled, disabled stays disabled. -/
theorem cas_irq_primask_preserved (pm p e d : Nat) :
    ((atomic_cas_irq pm p e d).2 = 0 ↔ pm = 0) := by
  by_cases h : pm = 0 <;> simp [atomic_cas_irq, h]

/-- Sequential invocation of `atomic_incr` N times (each call with the given
fuel): the scenario of the accumulation property. -/
def atomic_incr_iter (w fuel delta : Nat) : Nat → Nat → Option Nat
  | 0, cell => some cell
  | n + 1, cell =>
    match atomic_incr w fuel cell delta with
    | none => none
    | some r => atomic_incr_iter w fuel delta n r.1

/-- Running N sequential increments from cell `c < 2 ^ w` leaves the w-bit
value of `c + N * delta` in the cell. -/
theorem atomic_incr_iter_eq (w f d : Nat) (hf : 1 ≤ f) :
    ∀ N c, c < 2 ^ w → atomic_incr_iter w f d N c = some ((c + N * d) % 2 ^ w)
  | 0, c, hc => by
    simp [atomic_incr_iter, Nat.mod_eq_of_lt hc]
  | N + 1, c, hc => by
    rw [atomic_incr_iter, atomic_incr_eq w f c d hf]
    show atomic_incr_iter w f d N ((c + d) % 2 ^ w) =
      some ((c + (N + 1) * d) % 2 ^ w)
    rw [atomic_incr_iter_eq w f d hf N ((c + d) % 2 ^ w)
      (Nat.mod_lt _ (Nat.pos_pow_of_pos w (by omega)))]
    congr 1
    rw [Nat.mod_add_mod]
    ring_nf

/-- C3: sequential-increment accumulation — starting from cell `0`, N
sequential `atomic_incr` calls (any per-call fuel `f ≥ 1`; in the serial
setting no CAS retry ever occurs, and extra fuel is unused) leave the w-bit
value of `N * d` in the cell; moreover the call performed with the cell at the
w-bit value of `k * d` (the state after k calls) returns the w-bit value of
`(k + 1) * d`, so the k-th call returns `k * d` in w-bit arithmetic.  When
`N * d` fits in w bits the final cell value is exactly `N * d`. -/
theorem incr_sequential_accumulation (w d N k f : Nat) (hf : 1 ≤ f) :
    atomic_incr_iter w f d N 0 = some ((N * d) % 2 ^ w) ∧
    atomic_incr w f ((k * d) % 2 ^ w) d =
      some (((k + 1) * d) % 2 ^ w, ((k + 1) * d) % 2 ^ w) ∧
    (N * d < 2 ^ w → atomic_incr_iter w f d N 0 = some (N * d)) := by
  have hpos : 0 < 2 ^ w := Nat.pos_pow_of_pos w (by omega)
  have hiter := atomic_incr_iter_eq w f d hf N 0 hpos
  refine ⟨by simpa using hiter, ?_, ?_⟩
  · rw [atomic_incr_eq w f _ d hf, Nat.mod_add_mod]
    have : k * d + d = (k + 1) * d := by ring
    rw [this]
  · intro hlt
    rw [hiter]
    simp [Nat.mod_eq_of_lt hlt]

/-- C3 witness at `w = 8`, `d = 3`, `N = 5`, `k = 2`, `f = 2`. -/
theorem incr_sequential_accumulation_witness :
    (1 : Nat) ≤ 2 ∧
    (atomic_incr_iter 8 2 3 5 0 = some ((5 * 3) % 2 ^ 8) ∧
     atomic_incr 8 2 ((2 * 3) % 2 ^ 8) 3 =
       some (((2 + 1) * 3) % 2 ^ 8, ((2 + 1) * 3) % 2 ^ 8) ∧
     (5 * 3 < 2 ^ 8 → atomic_incr_iter 8 2 3 5 0 = some (5 * 3))) :=
  ⟨by decide, incr_sequential_accumulation 8 3 5 2 2 (by decide)⟩

/-- C6: decrement mirrors increment — serially, `atomic_decr` with cell `v`
stores and returns the w-bit value of `v - d` (which is exactly `v - d`
whenever `d ≤ v`), and `atomic_incr` stores and returns the w-bit value of
`v + d`; in both loops the stored candidate is computed from the `oldValue`
the successful CAS confirmed as current. -/
theorem decr_mirrors_incr (w v d f : Nat) (hf : 1 ≤ f) (hv : v < 2 ^ w)
    (hd : d < 2 ^ w) :
    atomic_decr w f v d =
      some ((v + (2 ^ w - d)) % 2 ^ w, (v + (2 ^ w - d)) % 2 ^ w) ∧
    atomic_incr w f v d = some ((v + d) % 2 ^ w, (v + d) % 2 ^ w) ∧
    (d ≤ v → atomic_decr w f v d = some (v - d, v - d)) := by
  have hdm : d % 2 ^ w = d := Nat.mod_eq_of_lt hd
  have hdecr := atomic_decr_eq w f v d hf
  rw [hdm] at hdecr
  refine ⟨hdecr, atomic_incr_eq w f v d hf, ?_⟩
  intro hle
  rw [hdecr]
  have hsplit : v + (2 ^ w - d) = (v - d) + 2 ^ w := by omega
  rw [hsplit, Nat.add_mod_right, Nat.mod_eq_of_lt (by omega)]

/-- C6 witness at `w = 8`, `v = 10`, `d = 4`, `f = 1`. -/
theorem decr_mirrors_incr_witness :
    ((1 : Nat) ≤ 1 ∧ (10 : Nat) < 2 ^ 8 ∧ (4 : Nat) < 2 ^ 8) ∧
    (atomic_decr 8 1 10 4 =
       some ((10 + (2 ^ 8 - 4)) % 2 ^ 8, (10 + (2 ^ 8 - 4)) % 2 ^ 8) ∧
     atomic_incr 8 1 10 4 = some ((10 + 4) % 2 ^ 8, (10 + 4) % 2 ^ 8) ∧
     ((4 : Nat) ≤ 10 → atomic_decr 8 1 10 4 = some (10 - 4, 10 - 4))) :=
  ⟨by decide, decr_mirrors_incr 8 10 4 1 (by decide) (by decide) (by decide)⟩

/-- C7: serial termination — with no interfering agent the very first CAS
attempt succeeds, so one unit of fuel (one loop iteration) already makes both
`atomic_incr` and `atomic_decr` return a value: the loops terminate after
exactly one iteration. -/
theorem incr_decr_terminate_serially (w c d : Nat) :
    (atomic_incr w 1 c d).isSome ∧ (atomic_decr w 1 c d).isSome := by
  rw [atomic_incr_eq w 1 c d (by omega), atomic_decr_eq w 1 c d (by omega)]
  exact ⟨rfl, rfl⟩

/-- C9: modular wraparound — serial `atomic_incr` stores and returns
`(v + d) mod 2 ^ w` and `atomic_decr` stores and returns `(v - d) mod 2 ^ w`
(the Nat expression `(v + (2 ^ w - d)) % 2 ^ w`, shown equal to the integer
`(v - d) mod 2 ^ w`); in particular an 8-bit increment of `0xFF` by 1 yields
`0x00` and an 8-bit decrement of `0` by 1 yields `0xFF`, the type's maximum
value. -/
theorem incr_decr_modular_wraparound (w v d f : Nat) (hf : 1 ≤ f)
    (hv : v < 2 ^ w) (hd : d < 2 ^ w) :
    atomic_incr w f v d = some ((v + d) % 2 ^ w, (v + d) % 2 ^ w) ∧
    atomic_decr w f v d =
      some ((v + (2 ^ w - d)) % 2 ^ w, (v + (2 ^ w - d)) % 2 ^ w) ∧
    ((((v + (2 ^ w - d)) % 2 ^ w : Nat) : Int) =
      ((v : Int) - (d : Int)) % 2 ^ w) ∧
    atomic_incr 8 1 255 1 = some (0, 0) ∧
    atomic_decr 8 1 0 1 = some (255, 255) := by
  have hdm : d % 2 ^ w = d := Nat.mod_eq_of_lt hd
  have hdecr := atomic_decr_eq w f v d hf
  rw [hdm] at hdecr
  refine ⟨atomic_incr_eq w f v d hf, hdecr, ?_, by decide, by decide⟩
  have h1 : (((v + (2 ^ w - d)) % 2 ^ w : Nat) : Int) =
      ((v : Int) - d + 2 ^ w) % 2 ^ w := by
    push_cast [Nat.cast_sub hd.le]
    ring_nf
  rw [h1,
    show ((v : Int) - d + 2 ^ w) = (v : Int) - d + 2 ^ w * 1 by ring,
    Int.add_mul_emod_self_left]

/-- C9 witness at `w = 8`, `v = 200`, `d = 250`, `f = 3` (both directions
wrap). -/
theorem incr_decr_modular_wraparound_witness :
    ((1 : Nat) ≤ 3 ∧ (200 : Nat) < 2 ^ 8 ∧ (250 : Nat) < 2 ^ 8) ∧
    (atomic_incr 8 3 200 250 =
       some ((200 + 250) % 2 ^ 8, (200 + 250) % 2 ^ 8) ∧
     atomic_decr 8 3 200 250 =
       some ((200 + (2 ^ 8 - 250)) % 2 ^ 8, (200 + (2 ^ 8 - 250)) % 2 ^ 8) ∧
     ((((200 + (2 ^ 8 - 250)) % 2 ^ 8 : Nat) : Int) =
       ((200 : Int) - (250 : Int)) % 2 ^ 8) ∧
     atomic_incr 8 1 255 1 = some (0, 0) ∧
     atomic_decr 8 1 0 1 = some (255, 255)) :=
  ⟨by decide,
   incr_decr_modular_wraparound 8 200 250 3 (by decide) (by decide)
     (by decide)⟩

/-- C10: increment/decrement round-trip — serially, `atomic_incr` moves the
cell from `v` to `(v + d) % 2 ^ w`, and `atomic_decr` run on that cell with
the same delta returns the cell to exactly `v` and returns `v`. -/
theorem incr_then_decr_roundtrip (w v d f : Nat) (hf : 1 ≤ f)
    (hv : v < 2 ^ w) (hd : d < 2 ^ w) :
    atomic_incr w f v d = some ((v + d) % 2 ^ w, (v + d) % 2 ^ w) ∧
    atomic_decr w f ((v + d) % 2 ^ w) d = some (v, v) := by
  have hdm : d % 2 ^ w = d := Nat.mod_eq_of_lt hd
  refine ⟨atomic_incr_eq w f v d hf, ?_⟩
  rw [atomic_decr_eq w f _ d hf, hdm]
  have hmod : ((v + d) % 2 ^ w + (2 ^ w - d)) % 2 ^ w = v := by
    rcases Nat.lt_or_ge (v + d) (2 ^ w) with hlt | hge
    · rw [Nat.mod_eq_of_lt hlt]
      have : v + d + (2 ^ w - d) = v + 2 ^ w := by omega
      rw [this, Nat.add_mod_right, Nat.mod_eq_of_lt hv]
    · rw [Nat.mod_eq_sub_mod hge,
        Nat.mod_eq_of_lt (show v + d - 2 ^ w < 2 ^ w by omega)]
      have : v + d - 2 ^ w + (2 ^ w - d) = v := by omega
      rw [this, Nat.mod_eq_of_lt hv]
  rw [hmod]

/-- C10 witness at `w = 8`, `v = 250`, `d = 20`, `f = 1` (the intermediate
value wraps). -/
theorem incr_then_decr_roundtrip_witness :
    ((1 : Nat) ≤ 1 ∧ (250 : Nat) < 2 ^ 8 ∧ (20 : Nat) < 2 ^ 8) ∧
    (atomic_incr 8 1 250 20 =
       some ((250 + 20) % 2 ^ 8, (250 + 20) % 2 ^ 8) ∧
     atomic_decr 8 1 ((250 + 20) % 2 ^ 8) 20 = some (250, 250)) :=
  ⟨by decide,
   incr_then_decr_roundtrip 8 250 20 1 (by decide) (by decide) (by decide)⟩

/-- Local state of one agent executing a stream of `atomic_incr` calls:
between calls (`idle`, with `done` completed increments) or inside the retry
loop holding its local `oldValue` (`running`). -/
inductive AgentState where
  | idle (done : Nat)
  | running (done : Nat) (oldValue : Nat)
deriving DecidableEq, Repr

/-- Number of increments the agent has completed. -/
def doneOf : AgentState → Nat
  | .idle k => k
  | .running k _ => k

/-- One scheduler-chosen step of an agent whose stream is `target` calls of
`atomic_incr` with the given `delta`.  An idle agent with calls left performs
the initial fetch `oldValue = *valuePtr`; a running agent performs one CAS
attempt of the loop body — one indivisible step, as guaranteed by either CAS
realization — finishing the call on success and retrying with the refreshed
expectation on failure.  Returns (new cell content, new agent state). -/
def agentStep (w delta target cell : Nat) : AgentState → Nat × AgentState
  | .idle k =>
    if k < target then (cell, .running k cell) else (cell, .idle k)
  | .running k oldValue =>
    let r := atomic_cas cell oldValue ((oldValue + delta) % 2 ^ w)
    if r.ok then (r.ptr, .idle (k + 1)) else (r.ptr, .running k r.expected)

/-- Shared state of two concurrent increment streams on one cell. -/
structure Sys where
  cell : Nat
  s1 : AgentState
  s2 : AgentState
deriving DecidableEq, Repr

/-- One interleaving step: the scheduler bit picks which agent moves (agent 1
runs increments of `d1` with target `a`, agent 2 increments of `d2` with
target `b`). -/
def sysStep (w d1 d2 a b : Nat) (st : Sys) (who : Bool) : Sys :=
  if who then
    let r := agentStep w d1 a st.cell st.s1
    { cell := r.1, s1 := r.2, s2 := st.s2 }
  else
    let r := agentStep w d2 b st.cell st.s2
    { cell := r.1, s1 := st.s1, s2 := r.2 }

/-- Run the two-agent system under an arbitrary finite schedule. -/
def runSched (w d1 d2 a b : Nat) : Sys → List Bool → Sys
  | st, [] => st
  | st, who :: rest => runSched w d1 d2 a b (sysStep w d1 d2 a b st who) rest

/-- An idle agent with calls left performs the initial fetch. -/
theorem agentStep_idle_start (w delta target cell k : Nat) (hk : k < target) :
    agentStep w delta target cell (.idle k) = (cell, .running k cell) := by
  simp [agentStep, hk]

/-- An idle agent with no calls left does nothing. -/
theorem agentStep_idle_done (w delta target cell k : Nat) (hk : ¬k < target) :
    agentStep w delta target cell (.idle k) = (cell, .idle k) := by
  simp [agentStep, hk]

/-- A CAS attempt whose expectation matches the cell commits the increment. -/
theorem agentStep_running_hit (w delta target old k : Nat) :
    agentStep w delta target old (.running k old) =
      ((old + delta) % 2 ^ w, .idle (k + 1)) := by
  simp [agentStep, atomic_cas_self]

/-- A CAS attempt whose expectation is stale fails, leaves the cell unchanged
and refreshes the expectation. -/
theorem agentStep_running_miss (w delta target cell old k : Nat)
    (hc : cell ≠ old) :
    agentStep w delta target cell (.running k old) =
      (cell, .running k cell) := by
  simp [agentStep, atomic_cas, hc]

/-- Step invariant for one agent: if the cell holds the w-bit value of
(completed increments) * delta plus the other stream's contribution `o`, any
step preserves that shape. -/
theorem agentStep_invariant (w delta target cell o : Nat) (s : AgentState)
    (h : cell = (doneOf s * delta + o) % 2 ^ w) :
    (agentStep w delta target cell s).1 =
      (doneOf (agentStep w delta target cell s).2 * delta + o) % 2 ^ w := by
  cases s with
  | idle k =>
    by_cases hk : k < target
    · rw [agentStep_idle_start w delta target cell k hk]
      exact h
    · rw [agentStep_idle_done w delta target cell k hk]
      exact h
  | running k oldValue =>
    rcases eq_or_ne cell oldValue with hc | hc
    · have h2 : oldValue = (k * delta + o) % 2 ^ w := by
        rw [← hc]
        exact h
      rw [hc, agentStep_running_hit w delta target oldValue k]
      show (oldValue + delta) % 2 ^ w = ((k + 1) * delta + o) % 2 ^ w
      rw [h2, Nat.mod_add_mod]
      congr 1
      ring
    · rw [agentStep_running_miss w delta target cell oldValue k hc]
      exact h

/-- Unfolding of `sysStep` when agent 1 is scheduled. -/
theorem sysStep_true (w d1 d2 a b : Nat) (st : Sys) :
    sysStep w d1 d2 a b st true =
      { cell := (agentStep w d1 a st.cell st.s1).1,
        s1 := (agentStep w d1 a st.cell st.s1).2, s2 := st.s2 } := by
  simp [sysStep]

/-- Unfolding of `sysStep` when agent 2 is scheduled. -/
theorem sysStep_false (w d1 d2 a b : Nat) (st : Sys) :
    sysStep w d1 d2 a b st false =
      { cell := (agentStep w d2 b st.cell st.s2).1,
        s1 := st.s1, s2 := (agentStep w d2 b st.cell st.s2).2 } := by
  simp [sysStep]

/-- The interleaving step preserves the accounting invariant
`cell = (done1 * d1 + done2 * d2) % 2 ^ w`. -/
theorem sysStep_invariant (w d1 d2 a b : Nat) (st : Sys) (who : Bool)
    (h : st.cell = (doneOf st.s1 * d1 + doneOf st.s2 * d2) % 2 ^ w) :
    (sysStep w d1 d2 a b st who).cell =
      (doneOf (sysStep w d1 d2 a b st who).s1 * d1 +
       doneOf (sysStep w d1 d2 a b st who).s2 * d2) % 2 ^ w := by
  cases who with
  | true =>
    rw [sysStep_true]
    exact agentStep_invariant w d1 a st.cell (doneOf st.s2 * d2) st.s1 h
  | false =>
    rw [sysStep_false]
    have h2 : st.cell = (doneOf st.s2 * d2 + doneOf st.s1 * d1) % 2 ^ w := by
      rw [h, Nat.add_comm]
    have hstep :=
      agentStep_invariant w d2 b st.cell (doneOf st.s1 * d1) st.s2 h2
    show (agentStep w d2 b st.cell st.s2).1 =
      (doneOf st.s1 * d1 +
        doneOf (agentStep w d2 b st.cell st.s2).2 * d2) % 2 ^ w
    rw [hstep, Nat.add_comm]

/-- The accounting invariant holds along any finite schedule. -/
theorem runSched_invariant (w d1 d2 a b : Nat) :
    ∀ (sched : List Bool) (st : Sys),
      st.cell = (doneOf st.s1 * d1 + doneOf st.s2 * d2) % 2 ^ w →
      (runSched w d1 d2 a b st sched).cell =
        (doneOf (runSched w d1 d2 a b st sched).s1 * d1 +
         doneOf (runSched w d1 d2 a b st sched).s2 * d2) % 2 ^ w
  | [], _, h => h
  | who :: rest, st, h =>
    runSched_invariant w d1 d2 a b rest (sysStep w d1 d2 a b st who)
      (sysStep_invariant w d1 d2 a b st who h)

/-- C8: no lost updates — for any interleaving (schedule) of two concurrent
streams of `a` and `b` `atomic_incr` operations with deltas `d1` and `d2` on a
cell starting at 0, once both streams have completed the cell holds the w-bit
value of `a * d1 + b * d2` (exactly `a * d1 + b * d2` whenever that sum fits
in w bits).  The final conjunct (free variables `c3 e3 s3`) records that a
successful CAS only ever stores a value computed from a value confirmed
current at the instant of the store: `atomic_cas` succeeds only when its
expectation equals the cell's current content. -/
theorem no_lost_updates (w d1 d2 a b c3 e3 s3 : Nat) (sched : List Bool)
    (h1 : (runSched w d1 d2 a b ⟨0, .idle 0, .idle 0⟩ sched).s1 = .idle a)
    (h2 : (runSched w d1 d2 a b ⟨0, .idle 0, .idle 0⟩ sched).s2 = .idle b) :
    (runSched w d1 d2 a b ⟨0, .idle 0, .idle 0⟩ sched).cell =
      (a * d1 + b * d2) % 2 ^ w ∧
    (a * d1 + b * d2 < 2 ^ w →
      (runSched w d1 d2 a b ⟨0, .idle 0, .idle 0⟩ sched).cell =
        a * d1 + b * d2) ∧
    ((atomic_cas c3 e3 s3).ok = true → c3 = e3) := by
  have hinv := runSched_invariant w d1 d2 a b sched ⟨0, .idle 0, .idle 0⟩
    (by simp [doneOf])
  rw [h1, h2] at hinv
  simp only [doneOf] at hinv
  refine ⟨hinv, fun hlt => ?_, ?_⟩
  · rw [hinv, Nat.mod_eq_of_lt hlt]
  · by_cases hc : c3 = e3 <;> simp [atomic_cas, hc]

/-- C8 witness: `w = 8`, `d1 = 3`, `d2 = 5`, streams of 2 and 1 increments,
under a schedule in which agent 2 reads a stale value, fails its first CAS
attempt against agent 1's committed update, and succeeds on retry. -/
theorem no_lost_updates_witness :
    ((runSched 8 3 5 2 1 ⟨0, .idle 0, .idle 0⟩
        [true, false, true, false, false, true, true]).s1 = .idle 2 ∧
     (runSched 8 3 5 2 1 ⟨0, .idle 0, .idle 0⟩
        [true, false, true, false, false, true, true]).s2 = .idle 1) ∧
    ((runSched 8 3 5 2 1 ⟨0, .idle 0, .idle 0⟩
        [true, false, true, false, false, true, true]).cell =
      (2 * 3 + 1 * 5) % 2 ^ 8 ∧
     (2 * 3 + 1 * 5 < 2 ^ 8 →
       (runSched 8 3 5 2 1 ⟨0, .idle 0, .idle 0⟩
          [true, false, true, false, false, true, true]).cell =
         2 * 3 + 1 * 5) ∧
     ((atomic_cas 4 4 9).ok = true → (4 : Nat) = 4)) :=
  ⟨⟨by decide, by decide⟩,
   no_lost_updates 8 3 5 2 1 4 4 9
     [true, false, true, false, false, true, true] (by decide) (by decide)⟩
